import Mathlib

/-!
Verification of the sentence-aware token-truncation routine
(`OpenAI.decode_tokens` in `needlehaystack/providers/openai.py`).

Strings are modelled as `List Char`; the external tokenizer's `decode`
method is an arbitrary function `List Nat → List Char` passed as a
parameter.  Python's `str.rfind`, slicing and `str.rstrip` are modelled
faithfully below.
-/

namespace NIAH

/-- Whitespace test modelling Python's `str.rstrip()` character class
(the ASCII whitespace characters). -/
def isPySpace (c : Char) : Bool :=
  c = ' ' || c = '\t' || c = '\n' || c = '\r' || c = '\x0b' || c = '\x0c'

/-- Model of Python `str.rstrip()`: remove trailing whitespace. -/
def rstrip (s : List Char) : List Char :=
  (s.reverse.dropWhile isPySpace).reverse

/-- `matchesAt s sub i` models the Python substring test `s[i:i+len(sub)] == sub`. -/
def matchesAt (s sub : List Char) (i : Nat) : Bool :=
  (s.drop i).take sub.length == sub

/-- Scans indices `i, i-1, ..., 0` and returns the greatest index `≤ i` at which
`sub` occurs in `s`, if any.  Helper for `rfindPos`. -/
def rfindAux (s sub : List Char) : Nat → Option Nat
  | 0 => if matchesAt s sub 0 then some 0 else none
  | i + 1 => if matchesAt s sub (i + 1) then some (i + 1) else rfindAux s sub i

/-- Greatest start index of an occurrence of `sub` in `s`, if any. -/
def rfindPos (s sub : List Char) : Option Nat :=
  rfindAux s sub s.length

/-- Model of Python `str.rfind`: the greatest start index of an occurrence of
`sub` in `s`, or `-1` when `sub` does not occur. -/
def rfind (s sub : List Char) : Int :=
  match rfindPos s sub with
  | some p => (p : Int)
  | none => -1

/-- The `sentence_endings` list of `decode_tokens`:
`['. ', '! ', '? ', '。', '！', '？']`. -/
def sentence_endings : List (List Char) :=
  [['.', ' '], ['!', ' '], ['?', ' '], ['。'], ['！'], ['？']]

/-- The loop of `decode_tokens`:
`last_end = -1; for ending in sentence_endings: last_end = max(last_end, text.rfind(ending))`. -/
def lastEnd (s : List Char) : Int :=
  sentence_endings.foldl (fun acc e => max acc (rfind s e)) (-1)

/-- Shallow embedding of `OpenAI.decode_tokens`.  The injected tokenizer's
`decode` method is the parameter `decode`; `context_length` is `none` when the
Python argument is `None`.  Mirrors the source line by line:
slice to `context_length` tokens, decode, and either right-strip or snap back
to the last sentence ending found by the `rfind` loop. -/
def decode_tokens (decode : List Nat → List Char) (tokens : List Nat)
    (context_length : Option Nat) (preserve_sentence : Bool) : List Char :=
  match context_length with
  | none => decode tokens
  | some m =>
    let truncated_text := decode (tokens.take m)
    if preserve_sentence = false then
      rstrip truncated_text
    else
      let last_end := lastEnd truncated_text
      if last_end ≠ -1 then
        rstrip (truncated_text.take (last_end.toNat + 1))
      else
        rstrip truncated_text

/-- For one marker `sub`, the ending index (exclusive) of its right-most
occurrence in `s`, or `-1` when it does not occur.  Spec-side notion: the
spec selects occurrences by greatest *ending* index. -/
def rfindEnd (s sub : List Char) : Int :=
  match rfindPos s sub with
  | some p => (p : Int) + sub.length
  | none => -1

/-- The greatest ending index over the right-most occurrences of all sentence
boundary markers, or `-1` when no marker occurs. -/
def bestEnd (s : List Char) : Int :=
  sentence_endings.foldl (fun acc e => max acc (rfindEnd s e)) (-1)

/-- Follows the spec's words for the `preserveSentence = true` case: among all
markers, select the occurrence with the greatest ending index; if one is found,
return the text up to and including that terminator with trailing whitespace
stripped; otherwise the full text right-stripped. -/
def specPreserve (s : List Char) : List Char :=
  if bestEnd s ≠ -1 then rstrip (s.take (bestEnd s).toNat) else rstrip s

/-- Spec reading of the stripping rule applied to a decoded text, by flag:
right-strip when `preserveSentence` is false, sentence-boundary snap then
right-strip when true. -/
def stripRule (preserve_sentence : Bool) (s : List Char) : List Char :=
  if preserve_sentence then specPreserve s else rstrip s

/-! ### Generic lemmas about the `foldl max` loops -/

lemma le_foldlMax (f : List Char → Int) (L : List (List Char)) (a : Int) :
    a ≤ L.foldl (fun acc e => max acc (f e)) a := by
  induction L generalizing a with
  | nil => exact le_refl a
  | cons x xs ih => exact le_trans (le_max_left a (f x)) (ih (max a (f x)))

lemma foldlMax_mem_le (f : List Char → Int) (L : List (List Char)) (a : Int)
    (x : List Char) (hx : x ∈ L) :
    f x ≤ L.foldl (fun acc e => max acc (f e)) a := by
  induction L generalizing a with
  | nil => cases hx
  | cons y ys ih =>
    rcases List.mem_cons.mp hx with h | h
    · subst h
      exact le_trans (le_max_right a (f x)) (le_foldlMax f ys _)
    · exact ih (max a (f y)) h

lemma foldlMax_le (f : List Char → Int) (L : List (List Char)) (a b : Int)
    (ha : a ≤ b) (h : ∀ x ∈ L, f x ≤ b) :
    L.foldl (fun acc e => max acc (f e)) a ≤ b := by
  induction L generalizing a with
  | nil => exact ha
  | cons y ys ih =>
    exact ih (max a (f y)) (max_le ha (h y (List.mem_cons_self y ys)))
      (fun x hx => h x (List.mem_cons_of_mem y hx))

lemma foldlMax_eq_init_or (f : List Char → Int) (L : List (List Char)) (a : Int) :
    L.foldl (fun acc e => max acc (f e)) a = a ∨
      ∃ x ∈ L, L.foldl (fun acc e => max acc (f e)) a = f x := by
  induction L generalizing a with
  | nil => exact Or.inl rfl
  | cons y ys ih =>
    rcases ih (max a (f y)) with h | ⟨x, hx, hfx⟩
    · rcases max_choice a (f y) with hm | hm
      · exact Or.inl (by rw [List.foldl_cons, h, hm])
      · exact Or.inr ⟨y, List.mem_cons_self y ys, by rw [List.foldl_cons, h, hm]⟩
    · exact Or.inr ⟨x, List.mem_cons_of_mem y hx, hfx⟩

/-! ### Lemmas about `matchesAt`, `rfindAux`, `rfindPos` -/

lemma matchesAt_take {s sub : List Char} {i : Nat} (h : matchesAt s sub i = true) :
    (s.drop i).take sub.length = sub := by
  simpa [matchesAt] using h

lemma matchesAt_bound {s sub : List Char} {i : Nat} (h : matchesAt s sub i = true)
    (hne : sub ≠ []) : i + sub.length ≤ s.length := by
  have hlen : ((s.drop i).take sub.length).length = sub.length := by
    rw [matchesAt_take h]
  rw [List.length_take, List.length_drop] at hlen
  have hpos : 0 < sub.length := List.length_pos.mpr hne
  omega

lemma rfindAux_eq_some {s sub : List Char} {i p : Nat}
    (h : rfindAux s sub i = some p) :
    matchesAt s sub p = true ∧ p ≤ i ∧
      ∀ q, q ≤ i → matchesAt s sub q = true → q ≤ p := by
  induction i with
  | zero =>
    by_cases hm : matchesAt s sub 0 = true
    · rw [rfindAux, if_pos hm] at h
      obtain rfl : 0 = p := Option.some.inj h
      exact ⟨hm, le_refl 0, fun q hq _ => hq⟩
    · rw [rfindAux, if_neg hm] at h
      exact absurd h (by simp)
  | succ i ih =>
    by_cases hm : matchesAt s sub (i + 1) = true
    · rw [rfindAux, if_pos hm] at h
      obtain rfl : i + 1 = p := Option.some.inj h
      exact ⟨hm, le_refl _, fun q hq _ => hq⟩
    · rw [rfindAux, if_neg hm] at h
      obtain ⟨h1, h2, h3⟩ := ih h
      refine ⟨h1, le_trans h2 (Nat.le_succ i), fun q hq hmq => ?_⟩
      by_cases hqi : q ≤ i
      · exact h3 q hqi hmq
      · have hq1 : q = i + 1 := by omega
        exact absurd hmq (by rw [hq1]; simp [hm])

lemma rfindAux_eq_none {s sub : List Char} {i : Nat}
    (h : rfindAux s sub i = none) :
    ∀ q, q ≤ i → matchesAt s sub q = false := by
  induction i with
  | zero =>
    intro q hq
    interval_cases q
    by_cases hm : matchesAt s sub 0 = true
    · rw [rfindAux, if_pos hm] at h
      exact absurd h (by simp)
    · simpa using hm
  | succ i ih =>
    by_cases hm : matchesAt s sub (i + 1) = true
    · rw [rfindAux, if_pos hm] at h
      exact absurd h (by simp)
    · rw [rfindAux, if_neg hm] at h
      intro q hq
      by_cases hqi : q ≤ i
      · exact ih h q hqi
      · have hq1 : q = i + 1 := by omega
        rw [hq1]; simpa using hm

lemma rfindPos_some {s sub : List Char} {p : Nat} (hne : sub ≠ [])
    (h : rfindPos s sub = some p) :
    matchesAt s sub p = true ∧ ∀ q, matchesAt s sub q = true → q ≤ p := by
  obtain ⟨h1, _, h3⟩ := rfindAux_eq_some h
  refine ⟨h1, fun q hq => ?_⟩
  have hqle : q ≤ s.length := by
    have := matchesAt_bound hq hne
    have := List.length_pos.mpr hne
    omega
  exact h3 q hqle hq

lemma rfindPos_none {s sub : List Char} (hne : sub ≠ [])
    (h : rfindPos s sub = none) :
    ∀ q, matchesAt s sub q = false := by
  intro q
  by_cases hq : q ≤ s.length
  · exact rfindAux_eq_none h q hq
  · by_contra hc
    have hm : matchesAt s sub q = true := by simpa using hc
    have := matchesAt_bound hm hne
    have := List.length_pos.mpr hne
    omega

lemma rfindPos_complete {s sub : List Char} {q : Nat} (hne : sub ≠ [])
    (h : matchesAt s sub q = true) :
    ∃ p, rfindPos s sub = some p := by
  cases heq : rfindPos s sub with
  | some p => exact ⟨p, rfl⟩
  | none => exact absurd (rfindPos_none hne heq q) (by simp [h])

/-! ### Lemmas about `rstrip` -/

lemma rstrip_append_space {l : List Char} {c : Char} (h : isPySpace c = true) :
    rstrip (l ++ [c]) = rstrip l := by
  simp [rstrip, List.reverse_append, List.dropWhile_cons, h]

lemma rstrip_append_nonspace {l : List Char} {c : Char} (h : isPySpace c = false) :
    rstrip (l ++ [c]) = l ++ [c] := by
  simp [rstrip, List.reverse_append, List.dropWhile_cons, h]

lemma length_dropWhile_le (p : Char → Bool) (l : List Char) :
    (l.dropWhile p).length ≤ l.length := by
  induction l with
  | nil => simp
  | cons x xs ih =>
    rw [List.dropWhile_cons]
    split
    · exact le_trans ih (Nat.le_succ _)
    · exact le_refl _

lemma length_dropWhile_append_ge (p : Char → Bool) (a b : List Char) :
    (b.dropWhile p).length ≤ ((a ++ b).dropWhile p).length := by
  induction a with
  | nil => simp
  | cons x xs ih =>
    rw [List.cons_append, List.dropWhile_cons]
    split
    · exact ih
    · simp only [List.length_cons, List.length_append]
      have := length_dropWhile_le p b
      omega

lemma length_rstrip_le_rstrip_append (l r : List Char) :
    (rstrip l).length ≤ (rstrip (l ++ r)).length := by
  simp only [rstrip, List.length_reverse, List.reverse_append]
  exact length_dropWhile_append_ge isPySpace r.reverse l.reverse

/-! ### Facts about the six sentence boundary markers -/

lemma sentence_endings_ne_nil : ∀ sub ∈ sentence_endings, sub ≠ [] := by decide

lemma sentence_endings_length_le : ∀ sub ∈ sentence_endings, sub.length ≤ 2 := by decide

lemma sentence_endings_two_space :
    ∀ sub ∈ sentence_endings, sub.length = 2 → sub.drop 1 = [' '] := by decide

lemma rfind_eq_of_pos {s sub : List Char} {p : Nat} (h : rfindPos s sub = some p) :
    rfind s sub = (p : Int) := by
  unfold rfind
  rw [h]

lemma rfind_eq_of_none {s sub : List Char} (h : rfindPos s sub = none) :
    rfind s sub = -1 := by
  unfold rfind
  rw [h]

lemma rfindEnd_eq_of_pos {s sub : List Char} {p : Nat} (h : rfindPos s sub = some p) :
    rfindEnd s sub = (p : Int) + sub.length := by
  unfold rfindEnd
  rw [h]

lemma rfindEnd_eq_of_none {s sub : List Char} (h : rfindPos s sub = none) :
    rfindEnd s sub = -1 := by
  unfold rfindEnd
  rw [h]

lemma rfind_ge_neg_one (s sub : List Char) : -1 ≤ rfind s sub := by
  cases h : rfindPos s sub with
  | some p => rw [rfind_eq_of_pos h]; omega
  | none => rw [rfind_eq_of_none h]

/-! ### The bridge: greatest-start selection (code) equals greatest-ending-index
selection (spec) -/

lemma snap_eq_specPreserve (t : List Char) :
    (if lastEnd t ≠ -1 then rstrip (t.take ((lastEnd t).toNat + 1)) else rstrip t)
      = specPreserve t := by
  by_cases hP : lastEnd t = -1
  · -- no marker occurs: every rfind is -1, hence every rfindEnd is -1
    have hre : ∀ sub ∈ sentence_endings, rfindEnd t sub = -1 := by
      intro sub hsub
      cases hpos : rfindPos t sub with
      | some p =>
        have h1 : rfind t sub ≤ lastEnd t := foldlMax_mem_le _ _ _ sub hsub
        rw [rfind_eq_of_pos hpos, hP] at h1
        omega
      | none => exact rfindEnd_eq_of_none hpos
    have hB : bestEnd t = -1 := by
      rcases foldlMax_eq_init_or (rfindEnd t) sentence_endings (-1) with h | ⟨x, hx, h⟩
      · exact h
      · rw [bestEnd, h]
        exact hre x hx
    rw [if_neg (by simp [hP])]
    unfold specPreserve
    rw [if_neg (by simp [hB])]
  · -- some marker occurs
    have hPge : -1 ≤ lastEnd t := le_foldlMax (rfind t) sentence_endings (-1)
    have hP0 : 0 ≤ lastEnd t := by omega
    obtain ⟨sub0, hsub0, hfsub0⟩ :
        ∃ x ∈ sentence_endings, lastEnd t = rfind t x := by
      rcases foldlMax_eq_init_or (rfind t) sentence_endings (-1) with h | ⟨x, hx, h⟩
      · exact absurd h hP
      · exact ⟨x, hx, h⟩
    obtain ⟨p0, hp0, hp0v⟩ :
        ∃ p0, rfindPos t sub0 = some p0 ∧ (p0 : Int) = lastEnd t := by
      cases hpos : rfindPos t sub0 with
      | some p => exact ⟨p, rfl, by rw [hfsub0, rfind_eq_of_pos hpos]⟩
      | none =>
        rw [hfsub0, rfind_eq_of_none hpos] at hP
        exact absurd rfl hP
    have hend0 : rfindEnd t sub0 = lastEnd t + sub0.length := by
      rw [rfindEnd_eq_of_pos hp0, hp0v]
    have hlen0 : 0 < sub0.length :=
      List.length_pos.mpr (sentence_endings_ne_nil sub0 hsub0)
    have hBge : lastEnd t + 1 ≤ bestEnd t := by
      have h1 : rfindEnd t sub0 ≤ bestEnd t :=
        foldlMax_mem_le _ _ _ sub0 hsub0
      omega
    have hBle : bestEnd t ≤ lastEnd t + 2 := by
      refine foldlMax_le _ _ _ _ (by omega) (fun sub hsub => ?_)
      cases hpos : rfindPos t sub with
      | some p =>
        have h1 : rfind t sub ≤ lastEnd t := foldlMax_mem_le (rfind t) _ _ sub hsub
        rw [rfind_eq_of_pos hpos] at h1
        have h2 := sentence_endings_length_le sub hsub
        rw [rfindEnd_eq_of_pos hpos]
        omega
      | none =>
        rw [rfindEnd_eq_of_none hpos]
        omega
    have hBne : bestEnd t ≠ -1 := by omega
    rw [if_pos hP]
    unfold specPreserve
    rw [if_pos hBne]
    rcases (by omega : bestEnd t = lastEnd t + 1 ∨ bestEnd t = lastEnd t + 2)
        with hB | hB
    · have hN : (bestEnd t).toNat = (lastEnd t).toNat + 1 := by omega
      rw [hN]
    · -- the winning occurrence is a two-character marker starting at lastEnd t,
      -- whose second character is a space removed by rstrip
      obtain ⟨sub1, hsub1, hfsub1⟩ :
          ∃ x ∈ sentence_endings, bestEnd t = rfindEnd t x := by
        rcases foldlMax_eq_init_or (rfindEnd t) sentence_endings (-1) with h | ⟨x, hx, h⟩
        · exact absurd h hBne
        · exact ⟨x, hx, h⟩
      obtain ⟨p1, hp1, hp1v⟩ :
          ∃ p1, rfindPos t sub1 = some p1 ∧
            (p1 : Int) + sub1.length = lastEnd t + 2 := by
        cases hpos : rfindPos t sub1 with
        | some p =>
          refine ⟨p, rfl, ?_⟩
          rw [← hB, hfsub1, rfindEnd_eq_of_pos hpos]
        | none =>
          rw [hfsub1, rfindEnd_eq_of_none hpos] at hB
          omega
      have hple : (p1 : Int) ≤ lastEnd t := by
        have h1 : rfind t sub1 ≤ lastEnd t := foldlMax_mem_le (rfind t) _ _ sub1 hsub1
        rwa [rfind_eq_of_pos hp1] at h1
      have hl2 : sub1.length = 2 := by
        have := sentence_endings_length_le sub1 hsub1
        omega
      have hpP : (p1 : Int) = lastEnd t := by omega
      have hm1 : matchesAt t sub1 p1 = true :=
        (rfindPos_some (sentence_endings_ne_nil sub1 hsub1) hp1).1
      have htk : (t.drop p1).take 2 = sub1 := by
        have h := matchesAt_take hm1
        rwa [hl2] at h
      have hsp : sub1 = sub1.take 1 ++ [' '] := by
        conv_lhs => rw [← List.take_append_drop 1 sub1]
        rw [sentence_endings_two_space sub1 hsub1 hl2]
      have h2take : t.take (p1 + 2) = (t.take p1 ++ sub1.take 1) ++ [' '] := by
        rw [List.take_add, htk, List.append_assoc]
        congr 1
      have h1take : t.take (p1 + 1) = t.take p1 ++ sub1.take 1 := by
        rw [List.take_add]
        congr 1
        rw [← htk, List.take_take]
        simp
      have hN2 : (bestEnd t).toNat = p1 + 2 := by omega
      have hN1 : (lastEnd t).toNat + 1 = p1 + 1 := by omega
      rw [hN1, hN2, h2take, rstrip_append_space (by decide), ← h1take]

/-! ### Claim theorems -/

/-- C1: for every token list and provided maxLength, with preserveSentence true,
`decode_tokens` searches the decoded text of the first `m` tokens for the
occurrence of a sentence boundary marker with the greatest ending index; if one
is found it returns the text up to and including that terminator with trailing
whitespace stripped, and otherwise the full truncated text right-stripped
(exactly `specPreserve`, which follows the spec's words). -/
theorem decode_tokens_preserve_follows_spec
    (decode : List Nat → List Char) (tokens : List Nat) (m : Nat) :
    decode_tokens decode tokens (some m) true
      = specPreserve (decode (tokens.take m)) := by
  have h := snap_eq_specPreserve (decode (tokens.take m))
  exact h

/-- C2: when maxLength is absent, `decode_tokens` returns exactly the
tokenizer's decoding of the full token list, unmodified, for both flag
values. -/
theorem decode_tokens_none_eq_decode
    (decode : List Nat → List Char) (tokens : List Nat) (preserve_sentence : Bool) :
    decode_tokens decode tokens none preserve_sentence = decode tokens := rfl

/-- C3 (counterexample): a maxLength strictly larger than the token list's
length does *not* behave identically to an absent maxLength: with the tokenizer
decoding `[0]` to `"a "`, the provided-limit call right-strips the trailing
space while the absent-limit call does not. -/
theorem decode_tokens_overlong_ne_none :
    decode_tokens (fun _ => ['a', ' ']) [0] (some 2) false
      ≠ decode_tokens (fun _ => ['a', ' ']) [0] none false := by decide

/-- C3 (amended): a provided maxLength strictly larger than the token list's
length behaves identically to a provided maxLength equal to the token list's
length (truncation selects the whole list in both cases; the stripping rules
then coincide). -/
theorem decode_tokens_overlong_eq_full_length
    (decode : List Nat → List Char) (tokens : List Nat) (preserve_sentence : Bool)
    (m : Nat) (h : tokens.length < m) :
    decode_tokens decode tokens (some m) preserve_sentence
      = decode_tokens decode tokens (some tokens.length) preserve_sentence := by
  have h1 : tokens.take m = tokens := List.take_of_length_le (le_of_lt h)
  have h2 : tokens.take tokens.length = tokens := List.take_length tokens
  simp only [decode_tokens, h1, h2]

/-- Witness for the amended C3 at concrete input. -/
theorem decode_tokens_overlong_eq_full_length_witness :
    ([0] : List Nat).length < 5 ∧
      decode_tokens (fun _ => ['a', ' ']) [0] (some 5) false
        = decode_tokens (fun _ => ['a', ' ']) [0] (some ([0] : List Nat).length) false :=
  ⟨by decide,
    decode_tokens_overlong_eq_full_length (fun _ => ['a', ' ']) [0] false 5 (by decide)⟩

/-- C4: for a provided maxLength at least the token list's length, the result
is the full decoding followed by the stripping rule for the flag (right-strip
when false; sentence snap then right-strip when true). -/
theorem decode_tokens_ge_length_eq_stripRule
    (decode : List Nat → List Char) (tokens : List Nat)
    (preserve_sentence : Bool) (m : Nat) (h : tokens.length ≤ m) :
    decode_tokens decode tokens (some m) preserve_sentence
      = stripRule preserve_sentence (decode tokens) := by
  have h1 : tokens.take m = tokens := List.take_of_length_le h
  cases preserve_sentence with
  | false =>
    show rstrip (decode (tokens.take m)) = rstrip (decode tokens)
    rw [h1]
  | true =>
    have hb := snap_eq_specPreserve (decode tokens)
    show (if lastEnd (decode (tokens.take m)) ≠ -1
        then rstrip ((decode (tokens.take m)).take
          ((lastEnd (decode (tokens.take m))).toNat + 1))
        else rstrip (decode (tokens.take m)))
      = stripRule true (decode tokens)
    rw [h1]
    exact hb

/-- Witness for C4 at concrete input. -/
theorem decode_tokens_ge_length_eq_stripRule_witness :
    ([0] : List Nat).length ≤ 3 ∧
      decode_tokens (fun _ => ['h', 'i', '.', ' ', 'x']) [0] (some 3) true
        = stripRule true ['h', 'i', '.', ' ', 'x'] :=
  ⟨by decide,
    decode_tokens_ge_length_eq_stripRule (fun _ => ['h', 'i', '.', ' ', 'x'])
      [0] true 3 (by decide)⟩

/-- C5: with preserveSentence false and a provided maxLength, the result is
exactly the decoding of the first `m` tokens (all of them when the list is
shorter), right-stripped. -/
theorem decode_tokens_no_preserve_eq_rstrip
    (decode : List Nat → List Char) (tokens : List Nat) (m : Nat) :
    decode_tokens decode tokens (some m) false
      = rstrip (decode (tokens.take m)) := rfl

/-- C6: sentence-preserving truncation never returns more characters than
non-preserving truncation on the same inputs, for provided or absent
maxLength. -/
theorem decode_tokens_preserve_length_le
    (decode : List Nat → List Char) (tokens : List Nat) (mo : Option Nat) :
    (decode_tokens decode tokens mo true).length
      ≤ (decode_tokens decode tokens mo false).length := by
  cases mo with
  | none => exact le_refl _
  | some m =>
    have hfalse : decode_tokens decode tokens (some m) false
        = rstrip (decode (tokens.take m)) := rfl
    have htrue : decode_tokens decode tokens (some m) true
        = if lastEnd (decode (tokens.take m)) ≠ -1
            then rstrip ((decode (tokens.take m)).take
              ((lastEnd (decode (tokens.take m))).toNat + 1))
            else rstrip (decode (tokens.take m)) := rfl
    rw [hfalse, htrue]
    by_cases hc : lastEnd (decode (tokens.take m)) ≠ -1
    · rw [if_pos hc]
      have h1 := length_rstrip_le_rstrip_append
        ((decode (tokens.take m)).take ((lastEnd (decode (tokens.take m))).toNat + 1))
        ((decode (tokens.take m)).drop ((lastEnd (decode (tokens.take m))).toNat + 1))
      rwa [List.take_append_drop] at h1
    · rw [if_neg hc]

/-- C7: with `maxLength = 0`, assuming the tokenizer decodes the empty token
list to the empty string, the result is the empty string for every token list
and both flag values. -/
theorem decode_tokens_zero_eq_nil
    (decode : List Nat → List Char) (tokens : List Nat) (preserve_sentence : Bool)
    (h : decode [] = []) :
    decode_tokens decode tokens (some 0) preserve_sentence = [] := by
  cases preserve_sentence with
  | false =>
    have hh : decode_tokens decode tokens (some 0) false
        = rstrip (decode []) := rfl
    rw [hh, h]
    rfl
  | true =>
    have hh : decode_tokens decode tokens (some 0) true
        = if lastEnd (decode []) ≠ -1
            then rstrip ((decode []).take ((lastEnd (decode [])).toNat + 1))
            else rstrip (decode []) := rfl
    rw [hh, h]
    decide

/-- Witness for C7 at concrete input. -/
theorem decode_tokens_zero_eq_nil_witness :
    ((fun ts : List Nat => ts.map (fun _ => 'a')) [] : List Char) = [] ∧
      decode_tokens (fun ts => ts.map (fun _ => 'a')) [7, 8] (some 0) true = [] :=
  ⟨rfl, decode_tokens_zero_eq_nil (fun ts => ts.map (fun _ => 'a')) [7, 8] true rfl⟩

/-- C8: `decode_tokens` is total: for every token list, maxLength (provided or
absent) and flag, given a (total) tokenizer decode function, it produces a
string; no error is raised or caught locally (the embedding returns a plain
`List Char`, not an error type). -/
theorem decode_tokens_total
    (decode : List Nat → List Char) (tokens : List Nat) (mo : Option Nat)
    (preserve_sentence : Bool) :
    ∃ s : List Char, decode_tokens decode tokens mo preserve_sentence = s :=
  ⟨_, rfl⟩

/-- C9: `decode_tokens` is deterministic and side-effect free: two calls with
equal token lists, equal maxLength, equal flag, and pointwise-equal tokenizer
decode behaviour return exactly the same string (the embedding is a pure
function, so no state is modified). -/
theorem decode_tokens_deterministic
    (d1 d2 : List Nat → List Char) (tokens : List Nat) (mo : Option Nat)
    (preserve_sentence : Bool) (h : ∀ ts, d1 ts = d2 ts) :
    decode_tokens d1 tokens mo preserve_sentence
      = decode_tokens d2 tokens mo preserve_sentence := by
  rw [funext h]

lemma sentence_endings_head_facts :
    ∀ sub ∈ sentence_endings,
      sub.take 1 = [sub.headD ' ']
        ∧ isPySpace (sub.headD ' ') = false
        ∧ sub.headD ' ' ∈ ['.', '!', '?', '。', '！', '？'] := by decide

/-- C10: with preserveSentence true and at least one sentence boundary marker
occurring in the truncated decoded text, the result is non-empty and its last
character is one of the six terminator characters; the trailing space of the
two-character ASCII markers is never included. -/
theorem decode_tokens_preserve_ends_with_terminator
    (decode : List Nat → List Char) (tokens : List Nat) (m : Nat)
    (h : ∃ sub ∈ sentence_endings, ∃ i,
      matchesAt (decode (tokens.take m)) sub i = true) :
    decode_tokens decode tokens (some m) true ≠ [] ∧
      ∃ c, c ∈ ['.', '!', '?', '。', '！', '？'] ∧
        (decode_tokens decode tokens (some m) true).getLast? = some c := by
  obtain ⟨sub, hsub, i, hmi⟩ := h
  have hnil : sub ≠ [] := sentence_endings_ne_nil sub hsub
  -- some marker occurs, so the rfind loop finds a position and lastEnd ≥ 0
  obtain ⟨p, hp⟩ := rfindPos_complete hnil hmi
  have hge : (p : Int) ≤ lastEnd (decode (tokens.take m)) := by
    have h1 : rfind (decode (tokens.take m)) sub ≤ lastEnd (decode (tokens.take m)) :=
      foldlMax_mem_le _ _ _ sub hsub
    rwa [rfind_eq_of_pos hp] at h1
  have hP0 : 0 ≤ lastEnd (decode (tokens.take m)) := by omega
  have hlastne : lastEnd (decode (tokens.take m)) ≠ -1 := by omega
  have hres : decode_tokens decode tokens (some m) true
      = rstrip ((decode (tokens.take m)).take
          ((lastEnd (decode (tokens.take m))).toNat + 1)) := by
    have hh : decode_tokens decode tokens (some m) true
        = if lastEnd (decode (tokens.take m)) ≠ -1
            then rstrip ((decode (tokens.take m)).take
              ((lastEnd (decode (tokens.take m))).toNat + 1))
            else rstrip (decode (tokens.take m)) := rfl
    rw [hh, if_pos hlastne]
  -- the position attaining lastEnd is an occurrence of some marker sub0
  obtain ⟨sub0, hsub0, hfsub0⟩ :
      ∃ x ∈ sentence_endings, lastEnd (decode (tokens.take m)) = rfind (decode (tokens.take m)) x := by
    rcases foldlMax_eq_init_or (rfind (decode (tokens.take m))) sentence_endings (-1)
        with h0 | ⟨x, hx, h0⟩
    · exact absurd h0 hlastne
    · exact ⟨x, hx, h0⟩
  obtain ⟨p0, hp0, hp0v⟩ :
      ∃ p0, rfindPos (decode (tokens.take m)) sub0 = some p0 ∧
        (p0 : Int) = lastEnd (decode (tokens.take m)) := by
    cases hpos : rfindPos (decode (tokens.take m)) sub0 with
    | some q => exact ⟨q, rfl, by rw [hfsub0, rfind_eq_of_pos hpos]⟩
    | none =>
      rw [hfsub0, rfind_eq_of_none hpos] at hlastne
      exact absurd rfl hlastne
  have hm0 : matchesAt (decode (tokens.take m)) sub0 p0 = true :=
    (rfindPos_some (sentence_endings_ne_nil sub0 hsub0) hp0).1
  have htk0 : ((decode (tokens.take m)).drop p0).take sub0.length = sub0 :=
    matchesAt_take hm0
  have hlen0 : 0 < sub0.length :=
    List.length_pos.mpr (sentence_endings_ne_nil sub0 hsub0)
  obtain ⟨hhead, hnsp, hmem⟩ := sentence_endings_head_facts sub0 hsub0
  -- the truncated text up to lastEnd + 1 ends with the marker's first character
  have h1take : (decode (tokens.take m)).take (p0 + 1)
      = (decode (tokens.take m)).take p0 ++ [sub0.headD ' '] := by
    rw [List.take_add]
    congr 1
    rw [← hhead, ← htk0, List.take_take]
    congr 1
    omega
  have hN : (lastEnd (decode (tokens.take m))).toNat + 1 = p0 + 1 := by omega
  rw [hres, hN, h1take, rstrip_append_nonspace hnsp]
  constructor
  · simp
  · exact ⟨sub0.headD ' ', hmem, List.getLast?_concat _⟩

/-- Witness for C10 at concrete input. -/
theorem decode_tokens_preserve_ends_with_terminator_witness :
    (∃ sub ∈ sentence_endings, ∃ i,
        matchesAt ['a', '.', ' ', 'b'] sub i = true) ∧
      (decode_tokens (fun _ => ['a', '.', ' ', 'b']) [0] (some 1) true ≠ [] ∧
        ∃ c, c ∈ ['.', '!', '?', '。', '！', '？'] ∧
          (decode_tokens (fun _ => ['a', '.', ' ', 'b']) [0] (some 1) true).getLast?
            = some c) :=
  ⟨⟨['.', ' '], by decide, 1, by decide⟩,
    decode_tokens_preserve_ends_with_terminator (fun _ => ['a', '.', ' ', 'b']) [0] 1
      ⟨['.', ' '], by decide, 1, by decide⟩⟩

/-- Witness for C9 at concrete input. -/
theorem decode_tokens_deterministic_witness :
    decode_tokens (fun ts => ts.map (fun _ => 'a')) [1, 2] (some 1) true
      = decode_tokens (fun ts => ts.map (fun _ => 'a')) [1, 2] (some 1) true :=
  decode_tokens_deterministic (fun ts => ts.map (fun _ => 'a'))
    (fun ts => ts.map (fun _ => 'a')) [1, 2] (some 1) true (fun _ => rfl)

end NIAH
